import Mathlib

/-!
Formal model of the `breeze-asr-rs` repository.

The Rust sources are embedded shallowly:
* `f32` scalars (durations, probabilities, logits, spectrogram entries) are
  modelled as exact rationals `ℚ` (or, where a claim needs genuinely
  transcendental values, as reals `ℝ`); `i16`/`i64` samples and token ids as
  `ℤ`; `usize`/`u32` as `ℕ`.  The Rust fold over `f32::NEG_INFINITY` is
  modelled with `Option` (`none` = `NEG_INFINITY`, which every finite value
  strictly exceeds).
* The neural networks (the `voice_activity_detector` classifier and the ONNX
  encoder/decoder) are external collaborators: their numeric outputs enter the
  model as explicit parameters (a per-chunk probability, a per-step logits
  vector), exactly as the specification treats them.
* Vectors become `List`, matrices become `List (List _)`, and in-place
  mutation becomes explicit state passing.
-/

namespace Breeze

/-! ### Streaming voice-activity segmenter, from `src/vad.rs` -/

/-- `pub const CHUNK_SIZE: usize = 512;` -/
def CHUNK_SIZE : Nat := 512

/-- `struct VadConfig` from `src/vad.rs`. -/
structure VadConfig where
  sample_rate : Nat
  speech_threshold : ℚ
  silence_duration_ms : Nat
  max_speech_duration_ms : Nat
  rollback_duration_ms : Nat
  min_speech_duration_ms : Nat
  notify_silence_after_ms : Option Nat
deriving DecidableEq

/-- `impl Default for VadConfig` from `src/vad.rs`. -/
def VadConfig.default : VadConfig where
  sample_rate := 16000
  speech_threshold := 1/2
  silence_duration_ms := 500
  max_speech_duration_ms := 10000
  rollback_duration_ms := 200
  min_speech_duration_ms := 250
  notify_silence_after_ms := none

/-- `enum VadState` from `src/vad.rs`. -/
inductive VadState where
  | Waiting
  | Recording
deriving DecidableEq

/-- `enum VadOutput` from `src/vad.rs`.  Samples are `i16`, modelled as `ℤ`. -/
inductive VadOutput where
  | Segment (s : List ℤ)
  | SilenceNotification
deriving DecidableEq

/-- `struct VadProcessor` from `src/vad.rs`.  The `vad` field (the neural
classifier) is external; its per-chunk probability is instead passed to
`process_chunk` as an argument. -/
structure VadProcessor where
  config : VadConfig
  state : VadState
  current_segment : List ℤ
  history_buffer : List ℤ
  silence_chunks : Nat
  speech_chunks : Nat
  waiting_dropped_chunks : Nat
  notified_silence : Bool
deriving DecidableEq

/-- `VadProcessor::new` from `src/vad.rs` (the classifier construction is
external and dropped). -/
def VadProcessor.new (config : VadConfig) : VadProcessor where
  config := config
  state := .Waiting
  current_segment := []
  history_buffer := []
  silence_chunks := 0
  speech_chunks := 0
  waiting_dropped_chunks := 0
  notified_silence := false

/-- `(CHUNK_SIZE as f32 / self.config.sample_rate as f32) * 1000.0`,
computed exactly in `ℚ`. -/
def chunkDurationMs (cfg : VadConfig) : ℚ :=
  (CHUNK_SIZE : ℚ) / (cfg.sample_rate : ℚ) * 1000

/-- `((rollback_duration_ms as f32 / 1000.0) * sample_rate as f32) as usize`:
the `f32 → usize` cast truncates toward zero, i.e. takes the floor of the
nonnegative value. -/
def rollbackSamples (cfg : VadConfig) : Nat :=
  Nat.floor ((cfg.rollback_duration_ms : ℚ) / 1000 * (cfg.sample_rate : ℚ))

/-- `VadProcessor::reset` from `src/vad.rs`. -/
def VadProcessor.reset (p : VadProcessor) : VadProcessor :=
  { p with
    current_segment := []
    history_buffer := []
    silence_chunks := 0
    speech_chunks := 0
    state := .Waiting
    waiting_dropped_chunks := 0
    notified_silence := false }

/-- `VadProcessor::finalize_segment` from `src/vad.rs`.  Rust mutates `self`
and returns `Option<VadOutput>`; here the updated state is returned alongside
the output. -/
def VadProcessor.finalize_segment (p : VadProcessor) (trim_tail : Bool) :
    VadProcessor × Option VadOutput :=
  if p.current_segment = [] then
    (p.reset, none)
  else
    let segment :=
      if trim_tail then
        let silence_len := p.silence_chunks * CHUNK_SIZE
        let valid_len := p.current_segment.length - silence_len
        if valid_len = 0 then [] else p.current_segment.take valid_len
      else
        p.current_segment
    let duration_ms : ℚ := (segment.length : ℚ) / (p.config.sample_rate : ℚ) * 1000
    let segment := if duration_ms < (p.config.min_speech_duration_ms : ℚ) then [] else segment
    (p.reset, if segment = [] then none else some (.Segment segment))

/-- `VadProcessor::process_chunk` from `src/vad.rs`.  The chunk's speech
probability (produced in Rust by the external `voice_activity_detector`
network) is an explicit argument.  The `while … pop_front` cap of the history
buffer is `List.drop` of the excess length. -/
def VadProcessor.process_chunk (p : VadProcessor) (chunk : List ℤ) (probability : ℚ) :
    VadProcessor × Option VadOutput :=
  let chunk_duration_ms := chunkDurationMs p.config
  match p.state with
  | .Waiting =>
      let hb0 := p.history_buffer ++ chunk
      let hb := hb0.drop (hb0.length - rollbackSamples p.config)
      if p.config.speech_threshold < probability then
        ({ p with
            state := .Recording
            current_segment := p.current_segment ++ hb
            history_buffer := []
            silence_chunks := 0
            speech_chunks := 0
            waiting_dropped_chunks := 0
            notified_silence := false }, none)
      else
        match p.config.notify_silence_after_ms with
        | some limit_ms =>
            let dropped := p.waiting_dropped_chunks + 1
            let dropped_duration := (dropped : ℚ) * chunk_duration_ms
            if (limit_ms : ℚ) ≤ dropped_duration ∧ p.notified_silence = false then
              ({ p with
                  history_buffer := hb
                  waiting_dropped_chunks := dropped
                  notified_silence := true }, some .SilenceNotification)
            else
              ({ p with
                  history_buffer := hb
                  waiting_dropped_chunks := dropped }, none)
        | none =>
            ({ p with history_buffer := hb }, none)
  | .Recording =>
      let q := { p with
        current_segment := p.current_segment ++ chunk
        speech_chunks := p.speech_chunks + 1 }
      if q.config.speech_threshold < probability then
        let q := { q with silence_chunks := 0 }
        let speech_duration_ms := (q.speech_chunks : ℚ) * chunk_duration_ms
        if (q.config.max_speech_duration_ms : ℚ) ≤ speech_duration_ms then
          q.finalize_segment false
        else
          (q, none)
      else
        let q := { q with silence_chunks := q.silence_chunks + 1 }
        let silence_duration_ms := (q.silence_chunks : ℚ) * chunk_duration_ms
        if (q.config.silence_duration_ms : ℚ) ≤ silence_duration_ms then
          q.finalize_segment true
        else
          (q, none)

/-- `VadProcessor::finish` from `src/vad.rs`. -/
def VadProcessor.finish (p : VadProcessor) : VadProcessor × Option VadOutput :=
  if p.current_segment ≠ [] then
    let duration_ms : ℚ :=
      (p.current_segment.length : ℚ) / (p.config.sample_rate : ℚ) * 1000
    if duration_ms < (p.config.min_speech_duration_ms : ℚ) then
      (p.reset, none)
    else
      (p.reset, some (.Segment p.current_segment))
  else
    (p, none)

/-- Feed a list of (chunk, probability) pairs through the segmenter,
collecting the per-chunk outputs. -/
def runVad (p : VadProcessor) : List (List ℤ × ℚ) → VadProcessor × List (Option VadOutput)
  | [] => (p, [])
  | (chunk, prob) :: rest =>
      let step := p.process_chunk chunk prob
      let r := runVad step.1 rest
      (r.1, step.2 :: r.2)

/-! ### Autoregressive decode loop, from `src/model.rs` -/

/-- `const SOT: i64 = 50258;` -/
def SOT : ℤ := 50258

/-- `const EOT: i64 = 50257;` -/
def EOT : ℤ := 50257

/-- `const MAX_LEN: usize = 448;` -/
def MAX_LEN : Nat := 448

/-- One step of the greedy-argmax fold from `src/model.rs`:
`|(argmax, max), (i, &val)| if val > max { (i, val) } else { (argmax, max) }`.
The `f32::NEG_INFINITY` start value is modelled by `none`, which every
rational strictly exceeds. -/
def argmaxStep (acc : Nat × Option ℚ) (iv : Nat × ℚ) : Nat × Option ℚ :=
  match acc.2 with
  | none => (iv.1, some iv.2)
  | some m => if m < iv.2 then (iv.1, some iv.2) else acc

/-- `logits_slice.iter().enumerate().fold((0, f32::NEG_INFINITY), …)` from
`src/model.rs`: the selected vocabulary index. -/
def argmaxLogits (l : List ℚ) : Nat :=
  (l.enum.foldl argmaxStep (0, none)).1

/-- The decoder loop of `BreezeModel::infer` from `src/model.rs`.
`logits i` is the logits vector the ONNX decoder session returns at step `i`
(the decoder network is an external collaborator, so its per-step outputs are
a parameter; quantifying over all `logits` functions covers every possible
sequence of `decodeStep` results).  Arguments: current step index, remaining
fuel (`MAX_LEN` minus steps already performed), accumulated tokens.  Returns
the accumulated tokens and the number of decoder steps performed. -/
def inferLoop (logits : Nat → List ℚ) : Nat → Nat → List ℤ → List ℤ × Nat
  | _, 0, tokens => (tokens, 0)
  | i, fuel+1, tokens =>
      let next : ℤ := (argmaxLogits (logits i) : ℤ)
      if next = EOT then (tokens, 1)
      else
        let r := inferLoop logits (i+1) fuel (tokens ++ [next])
        (r.1, r.2 + 1)

/-- `BreezeModel::infer` from `src/model.rs`, decoder phase: start from
`tokens = vec![SOT]` and run the greedy loop `for i in 0..MAX_LEN`. -/
def BreezeModel.infer (logits : Nat → List ℚ) : List ℤ × Nat :=
  inferLoop logits 0 MAX_LEN [SOT]

/-! ### Tokenizer, from `src/tokenizer.rs` -/

/-- UTF-8 continuation byte: `0x80..=0xBF`. -/
def utf8Cont (b : Nat) : Bool :=
  decide (0x80 ≤ b ∧ b ≤ 0xBF)

/-- Admissible first continuation byte after a three-byte lead, per the UTF-8
validation Rust's `String::from_utf8_lossy` performs. -/
def utf8Cont3 (b0 b1 : Nat) : Bool :=
  if b0 = 0xE0 then decide (0xA0 ≤ b1 ∧ b1 ≤ 0xBF)
  else if b0 = 0xED then decide (0x80 ≤ b1 ∧ b1 ≤ 0x9F)
  else utf8Cont b1

/-- Admissible first continuation byte after a four-byte lead, per the UTF-8
validation Rust's `String::from_utf8_lossy` performs. -/
def utf8Cont4 (b0 b1 : Nat) : Bool :=
  if b0 = 0xF0 then decide (0x90 ≤ b1 ∧ b1 ≤ 0xBF)
  else if b0 = 0xF4 then decide (0x80 ≤ b1 ∧ b1 ≤ 0x8F)
  else utf8Cont b1

/-- U+FFFD, the replacement character. -/
def replChar : Char := Char.ofNat 0xFFFD

/-- `String::from_utf8_lossy` from the Rust standard library (used by
`Tokenizer::decode`): decode a byte list as UTF-8, replacing each maximal
invalid subpart by one U+FFFD, exactly as Rust's validator assigns error
lengths. -/
def utf8DecodeLossy : List Nat → List Char
  | [] => []
  | b0 :: rest =>
    if b0 < 0x80 then
      Char.ofNat b0 :: utf8DecodeLossy rest
    else if b0 < 0xC2 then
      replChar :: utf8DecodeLossy rest
    else if b0 < 0xE0 then
      match rest with
      | [] => [replChar]
      | b1 :: rest1 =>
        if utf8Cont b1 then
          Char.ofNat ((b0 - 0xC0) * 0x40 + (b1 - 0x80)) :: utf8DecodeLossy rest1
        else
          replChar :: utf8DecodeLossy (b1 :: rest1)
    else if b0 < 0xF0 then
      match rest with
      | [] => [replChar]
      | b1 :: rest1 =>
        if utf8Cont3 b0 b1 then
          match rest1 with
          | [] => [replChar]
          | b2 :: rest2 =>
            if utf8Cont b2 then
              Char.ofNat ((b0 - 0xE0) * 0x1000 + (b1 - 0x80) * 0x40 + (b2 - 0x80)) ::
                utf8DecodeLossy rest2
            else
              replChar :: utf8DecodeLossy (b2 :: rest2)
        else
          replChar :: utf8DecodeLossy (b1 :: rest1)
    else if b0 < 0xF5 then
      match rest with
      | [] => [replChar]
      | b1 :: rest1 =>
        if utf8Cont4 b0 b1 then
          match rest1 with
          | [] => [replChar]
          | b2 :: rest2 =>
            if utf8Cont b2 then
              match rest2 with
              | [] => [replChar]
              | b3 :: rest3 =>
                if utf8Cont b3 then
                  Char.ofNat ((b0 - 0xF0) * 0x40000 + (b1 - 0x80) * 0x1000 +
                      (b2 - 0x80) * 0x40 + (b3 - 0x80)) :: utf8DecodeLossy rest3
                else
                  replChar :: utf8DecodeLossy (b3 :: rest3)
            else
              replChar :: utf8DecodeLossy (b2 :: rest2)
        else
          replChar :: utf8DecodeLossy (b1 :: rest1)
    else
      replChar :: utf8DecodeLossy rest

/-- `struct Tokenizer` from `src/tokenizer.rs`: the `HashMap<i64, Vec<u8>>`
becomes a lookup function (bytes as `Nat`). -/
structure Tokenizer where
  id_to_bytes : ℤ → Option (List Nat)

/-- The special-token test of `Tokenizer::decode`:
`bytes.len() > 4 && bytes.starts_with(b"<|") && bytes.ends_with(b"|>")`
(`"<|"` = `[60, 124]`, `"|>"` = `[124, 62]`). -/
def isSpecialToken (bytes : List Nat) : Bool :=
  decide (4 < bytes.length) && [60, 124].isPrefixOf bytes && [124, 62].isSuffixOf bytes

/-- The byte-accumulation loop of `Tokenizer::decode` from
`src/tokenizer.rs`: look each id up, skip special tokens, concatenate the
remaining byte sequences. -/
def Tokenizer.decodeBytes (t : Tokenizer) : List ℤ → List Nat
  | [] => []
  | id :: rest =>
      match t.id_to_bytes id with
      | none => t.decodeBytes rest
      | some bytes =>
          if isSpecialToken bytes then t.decodeBytes rest
          else bytes ++ t.decodeBytes rest

/-- `Tokenizer::decode` from `src/tokenizer.rs`:
`String::from_utf8_lossy(&all_bytes).into_owned()`. -/
def Tokenizer.decode (t : Tokenizer) (ids : List ℤ) : String :=
  String.mk (utf8DecodeLossy (t.decodeBytes ids))

/-! ### Feature extractor, from `src/audio.rs`

The extractor's scalar operations (`cos`, `log10`, `10^x`, `π`, the FFT of
the `rustfft` crate) are transcendental, so the pipeline is embedded
generically over a linearly ordered field `α` together with a record of those
operations; every structural fact (in particular every shape) holds for all
instantiations, and the mel filter bank is instantiated at `ℝ` with the exact
real operations where a claim is about the numeric values themselves. -/

/-- `const SAMPLE_RATE: usize = 16000;` -/
def SAMPLE_RATE : Nat := 16000

/-- `const N_FFT: usize = 400;` -/
def N_FFT : Nat := 400

/-- `const HOP_LENGTH: usize = 160;` -/
def HOP_LENGTH : Nat := 160

/-- `const CHUNK_LENGTH: usize = 30;` -/
def CHUNK_LENGTH : Nat := 30

/-- `const N_SAMPLES: usize = CHUNK_LENGTH * SAMPLE_RATE;` -/
def N_SAMPLES : Nat := CHUNK_LENGTH * SAMPLE_RATE

/-- `const N_MELS: usize = 80;` -/
def N_MELS : Nat := 80

/-- The external scalar/FFT operations the feature extractor calls.
`fftF` acts on complex vectors (pairs of real and imaginary part); `rustfft`
transforms its buffer in place, so it preserves the length, recorded as
`fftF_length`. -/
structure FloatOps (α : Type) where
  cosF : α → α
  log10F : α → α
  exp10F : α → α
  piF : α
  fftF : List (α × α) → List (α × α)
  fftF_length : ∀ l, (fftF l).length = l.length

/-- `2595.0 * (1.0 + f / 700.0).log10()` from `mel_filter_bank` in
`src/audio.rs`. -/
def melScale [Field α] (log10F : α → α) (f : α) : α :=
  2595 * log10F (1 + f / 700)

/-- The `mels` anchor array of `mel_filter_bank` in `src/audio.rs`, as a
function of the index `i` (`0 ≤ i ≤ n_mels + 1`):
`700.0 * (10.0f32.powf(m / 2595.0) - 1.0)` with
`m = mel_min + (mel_max - mel_min) * i / (n_mels + 1.0)`. -/
def melPoint [Field α] (log10F exp10F : α → α) (n_mels : Nat) (fmin fmax : α)
    (i : Nat) : α :=
  let mel_min := melScale log10F fmin
  let mel_max := melScale log10F fmax
  let m := mel_min + (mel_max - mel_min) * (i : α) / ((n_mels : α) + 1)
  700 * (exp10F (m / 2595) - 1)

/-- The triangular weight `weights[[j, i]]` of `mel_filter_bank` in
`src/audio.rs` before normalization: rising from `mels[i]` to `mels[i+1]`,
falling to `mels[i+2]`, measured at `fft_freqs[j] = j * sr / n_fft`. -/
def melWeightRaw [LinearOrderedField α] (log10F exp10F : α → α)
    (sr n_fft : Nat) (n_mels : Nat) (fmin fmax : α) (j i : Nat) : α :=
  let freq : α := (j : α) * (sr : α) / (n_fft : α)
  let f_prev := melPoint log10F exp10F n_mels fmin fmax i
  let f_curr := melPoint log10F exp10F n_mels fmin fmax (i + 1)
  let f_next := melPoint log10F exp10F n_mels fmin fmax (i + 2)
  if f_prev ≤ freq ∧ freq < f_curr then (freq - f_prev) / (f_curr - f_prev)
  else if f_curr ≤ freq ∧ freq < f_next then (f_next - freq) / (f_next - f_curr)
  else 0

/-- The weight after the Slaney-style normalization pass of `mel_filter_bank`
(`norm_factor = 2.0 / width` with `width = mels[i + 2] - mels[i]`, applied to
every entry of column `i`). -/
def melWeight [LinearOrderedField α] (log10F exp10F : α → α)
    (sr n_fft : Nat) (n_mels : Nat) (fmin fmax : α) (j i : Nat) : α :=
  melWeightRaw log10F exp10F sr n_fft n_mels fmin fmax j i *
    (2 / (melPoint log10F exp10F n_mels fmin fmax (i + 2) -
          melPoint log10F exp10F n_mels fmin fmax i))

/-- `mel_filter_bank` from `src/audio.rs` as a `[n_freqs × n_mels]` matrix,
`n_freqs = n_fft / 2 + 1`. -/
def mel_filter_bank [LinearOrderedField α] (log10F exp10F : α → α)
    (sr n_fft : Nat) (n_mels : Nat) (fmin fmax : α) : List (List α) :=
  (List.range (n_fft / 2 + 1)).map fun j =>
    (List.range n_mels).map fun i =>
      melWeight log10F exp10F sr n_fft n_mels fmin fmax j i

/-- Sum over a mel band (one column of the filter bank) of the normalized
weights. -/
def melColSum [LinearOrderedField α] (log10F exp10F : α → α)
    (sr n_fft : Nat) (n_mels : Nat) (fmin fmax : α) (i : Nat) : α :=
  ((List.range (n_fft / 2 + 1)).map fun j =>
    melWeight log10F exp10F sr n_fft n_mels fmin fmax j i).sum

/-- Sum over a mel band of the unnormalized triangular weights. -/
def melColSumRaw [LinearOrderedField α] (log10F exp10F : α → α)
    (sr n_fft : Nat) (n_mels : Nat) (fmin fmax : α) (i : Nat) : α :=
  ((List.range (n_fft / 2 + 1)).map fun j =>
    melWeightRaw log10F exp10F sr n_fft n_mels fmin fmax j i).sum

/-- `hann_window` from `src/audio.rs`:
`0.5 * (1.0 - (2.0 * PI * i as f32 / size as f32).cos())`. -/
def hann_window [LinearOrderedField α] (ops : FloatOps α) (size : Nat) : List α :=
  (List.range size).map fun i =>
    (1 / 2) * (1 - ops.cosF (2 * ops.piF * (i : α) / (size : α)))

/-- `stft` from `src/audio.rs`: `n_frames = (len - n_fft) / hop + 1` frames,
each the FFT of the windowed slice `input[i*hop .. i*hop + n_fft]` lifted to
complex numbers.  (Each row of the Rust output matrix is overwritten entirely
by the transformed frame.) -/
def stft [LinearOrderedField α] (ops : FloatOps α) (input : List α)
    (n_fft hop_length : Nat) (window : List α) : List (List (α × α)) :=
  let n_frames := (input.length - n_fft) / hop_length + 1
  (List.range n_frames).map fun i =>
    let frame := (input.drop (i * hop_length)).take n_fft
    let windowed := List.zipWith (fun a b => a * b) frame window
    ops.fftF (windowed.map fun x => (x, (0 : α)))

/-- Transpose of a row-major matrix with `cols` columns (`ndarray`'s `.t()`;
rows are uniform in every use). -/
def transposeM [LinearOrderedField α] (A : List (List α)) (cols : Nat) : List (List α) :=
  (List.range cols).map fun j => A.map fun row => row.getD j 0

/-- Dot product of two rows. -/
def dotL [LinearOrderedField α] (u v : List α) : α :=
  (List.zipWith (fun a b => a * b) u v).sum

/-- `ndarray`'s `magnitudes.dot(&mel_filters)`: row-by-column products, the
right matrix having `bCols` columns. -/
def matMul [LinearOrderedField α] (A B : List (List α)) (bCols : Nat) : List (List α) :=
  A.map fun row => (transposeM B bCols).map fun col => dotL row col

/-- `AudioProcessor::new` from `src/audio.rs`: the stored
`mel_filter_bank(SAMPLE_RATE, N_FFT, N_MELS, 0.0, 8000.0)`. -/
def AudioProcessor.mel_filters [LinearOrderedField α] (ops : FloatOps α) : List (List α) :=
  mel_filter_bank ops.log10F ops.exp10F SAMPLE_RATE N_FFT N_MELS 0 8000

/-- `AudioProcessor::log_mel_spectrogram` from `src/audio.rs`.  The running
maximum starts at `f32::NEG_INFINITY`, modelled by `none`; in the `none` case
(empty grid, never reached) `x.max(NEG_INFINITY - 8.0) = x`, so the scaling
is `(x + 4) / 4` there. -/
def AudioProcessor.log_mel_spectrogram [LinearOrderedField α] (ops : FloatOps α)
    (audio : List α) : List (List α) :=
  let padded_audio :=
    if audio.length < N_SAMPLES then audio ++ List.replicate (N_SAMPLES - audio.length) 0
    else if N_SAMPLES < audio.length then audio.take N_SAMPLES
    else audio
  let window := hann_window ops N_FFT
  let stft_out := stft ops padded_audio N_FFT HOP_LENGTH window
  let magnitudes := stft_out.map fun row => row.map fun c => c.1 * c.1 + c.2 * c.2
  let magnitudes := magnitudes.map fun row => row.take (N_FFT / 2 + 1)
  let mel_spec := matMul magnitudes (AudioProcessor.mel_filters ops) N_MELS
  let log_spec := mel_spec.map fun row => row.map fun x =>
    ops.log10F (max x (1 / 10000000000))
  let max_val := log_spec.flatten.foldl
    (fun a b => match a with | none => some b | some x => some (max x b)) none
  let log_spec := log_spec.map fun row => row.map fun x =>
    match max_val with
    | some m => (max x (m - 8) + 4) / 4
    | none => (x + 4) / 4
  let current_frames := log_spec.length
  let target_frames := 3000
  let final_spec :=
    if current_frames < target_frames then
      log_spec ++ List.replicate (target_frames - current_frames) (List.replicate N_MELS 0)
    else if target_frames < current_frames then
      log_spec.take target_frames
    else
      log_spec
  transposeM final_spec N_MELS

/-- `AudioProcessor::process_pcm` from `src/audio.rs`. -/
def AudioProcessor.process_pcm [LinearOrderedField α] (ops : FloatOps α)
    (samples : List α) : List (List α) :=
  AudioProcessor.log_mel_spectrogram ops samples

/-! ### Streaming orchestration, from `src/lib.rs` -/

/-- Rust's `char::is_whitespace` (the Unicode `White_Space` property), used
by `text.trim()` in `BreezeASR::infer_stream`. -/
def rustIsWhitespace (c : Char) : Bool :=
  [0x09, 0x0A, 0x0B, 0x0C, 0x0D, 0x20, 0x85, 0xA0, 0x1680,
   0x2000, 0x2001, 0x2002, 0x2003, 0x2004, 0x2005, 0x2006, 0x2007,
   0x2008, 0x2009, 0x200A, 0x2028, 0x2029, 0x202F, 0x205F, 0x3000].contains c.toNat

/-- Rust's `str::trim`: strip leading and trailing whitespace. -/
def rustTrim (s : String) : String :=
  String.mk (((s.data.dropWhile rustIsWhitespace).reverse.dropWhile rustIsWhitespace).reverse)

/-- The per-output yield logic of `BreezeASR::infer_stream` from
`src/lib.rs`: a finalized `Segment` is transcribed by `infer_segment`
(abstracted as the oracle `infSeg`, since it runs the external networks); a
failed transcription or a whitespace-only text yields nothing; a
`SilenceNotification` yields nothing. -/
def segmentItems (infSeg : List ℤ → Except Unit String) (out : Option VadOutput) :
    List (Except Unit String) :=
  match out with
  | some (.Segment seg) =>
      match infSeg seg with
      | .ok text => if rustTrim text = "" then [] else [.ok text]
      | .error _ => []
  | _ => []

/-- `BreezeASR::infer_stream` from `src/lib.rs`: consume the chunk stream
(each chunk paired with its classifier probability), skipping chunks whose
length is not `CHUNK_SIZE`, feeding the rest to the segmenter, yielding the
non-empty transcriptions, and running `finish()` at end of stream.  Returns
the final segmenter state and the yielded items in order. -/
def inferStream (infSeg : List ℤ → Except Unit String) :
    VadProcessor → List (List ℤ × ℚ) → VadProcessor × List (Except Unit String)
  | p, [] =>
      let r := p.finish
      (r.1, segmentItems infSeg r.2)
  | p, (chunk, prob) :: rest =>
      if chunk.length ≠ CHUNK_SIZE then inferStream infSeg p rest
      else
        let step := p.process_chunk chunk prob
        let r := inferStream infSeg step.1 rest
        (r.1, segmentItems infSeg step.2 ++ r.2)

/-! ### Step-characterization lemmas for the segmenter -/

/-- `process_chunk` in the `Waiting` state on a chunk above the threshold. -/
theorem process_chunk_waiting_speech (p : VadProcessor) (chunk : List ℤ) (prob : ℚ)
    (hw : p.state = .Waiting) (hp : p.config.speech_threshold < prob) :
    p.process_chunk chunk prob =
      ({ p with
          state := .Recording
          current_segment := p.current_segment ++
            ((p.history_buffer ++ chunk).drop
              ((p.history_buffer ++ chunk).length - rollbackSamples p.config))
          history_buffer := []
          silence_chunks := 0
          speech_chunks := 0
          waiting_dropped_chunks := 0
          notified_silence := false }, none) := by
  unfold VadProcessor.process_chunk
  rw [hw]
  simp [hp]

/-- `process_chunk` in the `Waiting` state on a chunk at or below the
threshold, with no silence-notification timeout configured. -/
theorem process_chunk_waiting_silence_none (p : VadProcessor) (chunk : List ℤ) (prob : ℚ)
    (hw : p.state = .Waiting) (hp : ¬ p.config.speech_threshold < prob)
    (hn : p.config.notify_silence_after_ms = none) :
    p.process_chunk chunk prob =
      ({ p with
          history_buffer := (p.history_buffer ++ chunk).drop
            ((p.history_buffer ++ chunk).length - rollbackSamples p.config) }, none) := by
  unfold VadProcessor.process_chunk
  rw [hw]
  simp [hp, hn]

/-- `process_chunk` in the `Waiting` state on a chunk at or below the
threshold, with a silence-notification timeout configured. -/
theorem process_chunk_waiting_silence_some (p : VadProcessor) (chunk : List ℤ) (prob : ℚ)
    (t : Nat) (hw : p.state = .Waiting) (hp : ¬ p.config.speech_threshold < prob)
    (hn : p.config.notify_silence_after_ms = some t) :
    p.process_chunk chunk prob =
      (if (t : ℚ) ≤ ((p.waiting_dropped_chunks : ℚ) + 1) * chunkDurationMs p.config ∧
          p.notified_silence = false then
        ({ p with
            history_buffer := (p.history_buffer ++ chunk).drop
              ((p.history_buffer ++ chunk).length - rollbackSamples p.config)
            waiting_dropped_chunks := p.waiting_dropped_chunks + 1
            notified_silence := true }, some .SilenceNotification)
      else
        ({ p with
            history_buffer := (p.history_buffer ++ chunk).drop
              ((p.history_buffer ++ chunk).length - rollbackSamples p.config)
            waiting_dropped_chunks := p.waiting_dropped_chunks + 1 }, none)) := by
  unfold VadProcessor.process_chunk
  rw [hw]
  simp [hp, hn]

/-- `process_chunk` in the `Recording` state on a chunk above the
threshold. -/
theorem process_chunk_recording_speech (p : VadProcessor) (chunk : List ℤ) (prob : ℚ)
    (hw : p.state = .Recording) (hp : p.config.speech_threshold < prob) :
    p.process_chunk chunk prob =
      (let q := { p with
          current_segment := p.current_segment ++ chunk
          speech_chunks := p.speech_chunks + 1
          silence_chunks := 0 }
       if (p.config.max_speech_duration_ms : ℚ) ≤
           ((p.speech_chunks : ℚ) + 1) * chunkDurationMs p.config then
         q.finalize_segment false
       else (q, none)) := by
  unfold VadProcessor.process_chunk
  rw [hw]
  simp [hp]

/-- `process_chunk` in the `Recording` state on a chunk at or below the
threshold. -/
theorem process_chunk_recording_silence (p : VadProcessor) (chunk : List ℤ) (prob : ℚ)
    (hw : p.state = .Recording) (hp : ¬ p.config.speech_threshold < prob) :
    p.process_chunk chunk prob =
      (let q := { p with
          current_segment := p.current_segment ++ chunk
          speech_chunks := p.speech_chunks + 1
          silence_chunks := p.silence_chunks + 1 }
       if (p.config.silence_duration_ms : ℚ) ≤
           ((p.silence_chunks : ℚ) + 1) * chunkDurationMs p.config then
         q.finalize_segment true
       else (q, none)) := by
  unfold VadProcessor.process_chunk
  rw [hw]
  simp [hp]

/-! ### Concrete fixtures used by witnesses and counterexamples -/

/-- A 512-sample chunk (the fixed `CHUNK_SIZE` of the segmenter). -/
def chunk512 : List ℤ := List.replicate 512 1

theorem chunk512_length : chunk512.length = CHUNK_SIZE := by
  rw [chunk512, List.length_replicate, CHUNK_SIZE]

/-- Config with a one-chunk silence window, zero rollback and zero minimum
duration. -/
def cfgC3 : VadConfig := ⟨16000, 1/2, 32, 10000, 0, 0, none⟩

/-- A mid-recording state: default config, 24 chunks of audio accumulated,
15 consecutive silent chunks counted. -/
def p3w : VadProcessor :=
  ⟨VadConfig.default, .Recording, List.replicate 12288 1, [], 15, 24, 0, false⟩

/-- C3, amended.  In the `Recording` state with probability at or below the
threshold, the chunk is appended to the segment and the consecutive-silence
counter incremented; when `(silence_chunks + 1) * chunkDurationMs` reaches
`silence_duration_ms`, the segment is finalized with tail trimming: the last
`(silence_chunks + 1) * CHUNK_SIZE` samples are dropped, the result is
discarded when it is empty or its duration is below `min_speech_duration_ms`,
and emitted as a `Segment` otherwise; in all cases the state resets.
Otherwise only the counters and segment are updated and nothing is output. -/
theorem vad_recording_silence_step (p : VadProcessor) (chunk : List ℤ) (prob : ℚ)
    (hrec : p.state = .Recording) (hlen : chunk.length = CHUNK_SIZE)
    (hp : prob ≤ p.config.speech_threshold) :
    p.process_chunk chunk prob =
      (if (p.config.silence_duration_ms : ℚ) ≤
          ((p.silence_chunks : ℚ) + 1) * chunkDurationMs p.config then
        (p.reset,
          let trimmed := (p.current_segment ++ chunk).take
            ((p.current_segment ++ chunk).length - (p.silence_chunks + 1) * CHUNK_SIZE)
          if trimmed = [] ∨
              (trimmed.length : ℚ) / (p.config.sample_rate : ℚ) * 1000 <
                (p.config.min_speech_duration_ms : ℚ) then
            none
          else some (.Segment trimmed))
      else
        ({ p with
            current_segment := p.current_segment ++ chunk
            speech_chunks := p.speech_chunks + 1
            silence_chunks := p.silence_chunks + 1 }, none)) := by
  have hp' : ¬ p.config.speech_threshold < prob := not_lt.mpr hp
  rw [process_chunk_recording_silence p chunk prob hrec hp']
  by_cases htrig : (p.config.silence_duration_ms : ℚ) ≤
      ((p.silence_chunks : ℚ) + 1) * chunkDurationMs p.config
  · simp only [htrig, if_true]
    have hne : ¬ (p.current_segment ++ chunk = []) := by
      intro h
      have := congrArg List.length h
      simp [hlen] at this
      exact absurd this (by norm_num [CHUNK_SIZE])
    unfold VadProcessor.finalize_segment
    simp only [hne, if_false]
    have htake : (if (p.current_segment ++ chunk).length - (p.silence_chunks + 1) * CHUNK_SIZE = 0
        then ([] : List ℤ)
        else (p.current_segment ++ chunk).take
          ((p.current_segment ++ chunk).length - (p.silence_chunks + 1) * CHUNK_SIZE)) =
        (p.current_segment ++ chunk).take
          ((p.current_segment ++ chunk).length - (p.silence_chunks + 1) * CHUNK_SIZE) := by
      split
      · rename_i h0
        rw [h0, List.take_zero]
      · rfl
    simp only [htake]
    generalize (p.current_segment ++ chunk).take
        ((p.current_segment ++ chunk).length - (p.silence_chunks + 1) * CHUNK_SIZE) = L
    by_cases hdur : (L.length : ℚ) / (p.config.sample_rate : ℚ) * 1000 <
        (p.config.min_speech_duration_ms : ℚ)
    · simp [hdur, VadProcessor.reset]
    · by_cases hnil : L = []
      · simp [hdur, hnil, VadProcessor.reset]
      · simp [hdur, hnil, VadProcessor.reset]
  · simp only [htrig, if_false]

set_option maxRecDepth 4000 in
/-- C3, counterexample to the claim as stated.  With
`min_speech_duration_ms = 0` and a silence window of one chunk, a silence
chunk triggers finalization with tail trimming that removes the whole
segment; its duration (0 ms) is not below the minimum (0 ms), so the claim as
stated predicts an (empty) `Segment` is emitted, but the code emits nothing:
both outputs of the run are `none` although the silence trigger fired
(`32 ≤ 1 · 32`) and the trimmed duration is not below the minimum. -/
theorem vad_recording_silence_emit_cx :
    (runVad (VadProcessor.new cfgC3) [(chunk512, 9/10), (chunk512, 1/10)]).2 = [none, none] ∧
    (cfgC3.silence_duration_ms : ℚ) ≤ ((0 : ℚ) + 1) * chunkDurationMs cfgC3 ∧
    ¬ ((0 : ℚ) / (cfgC3.sample_rate : ℚ) * 1000 < (cfgC3.min_speech_duration_ms : ℚ)) := by
  refine ⟨?_, by norm_num [cfgC3, chunkDurationMs, CHUNK_SIZE], by norm_num [cfgC3]⟩
  norm_num [runVad, VadProcessor.process_chunk, VadProcessor.new, cfgC3, chunkDurationMs,
    rollbackSamples, CHUNK_SIZE, VadProcessor.finalize_segment, VadProcessor.reset, chunk512]

/-- C3, witness: the amended step theorem applied to a concrete
mid-recording state where a silence chunk closes the segment, trims the 16
trailing silent chunks and emits the remaining 4608 samples. -/
theorem vad_recording_silence_step_app :
    (p3w.process_chunk chunk512 (1/10)).2 = some (.Segment (List.replicate 4608 1)) ∧
    (p3w.process_chunk chunk512 (1/10)).1 = p3w.reset := by
  have hcfg : p3w.config = VadConfig.default := rfl
  have hmerge : List.replicate 12288 (1 : ℤ) ++ chunk512 = List.replicate 12800 1 := by
    rw [chunk512, ← List.replicate_add]
  rw [vad_recording_silence_step p3w chunk512 (1/10) rfl chunk512_length
    (by rw [hcfg]; norm_num [VadConfig.default])]
  have hcond : (p3w.config.silence_duration_ms : ℚ) ≤
      ((p3w.silence_chunks : ℚ) + 1) * chunkDurationMs p3w.config := by
    rw [hcfg, show p3w.silence_chunks = 15 from rfl]
    norm_num [VadConfig.default, chunkDurationMs, CHUNK_SIZE]
  rw [if_pos hcond]
  have htr : (p3w.current_segment ++ chunk512).take
      ((p3w.current_segment ++ chunk512).length - (p3w.silence_chunks + 1) * CHUNK_SIZE) =
      List.replicate 4608 (1 : ℤ) := by
    rw [show p3w.current_segment = List.replicate 12288 1 from rfl, hmerge,
      List.length_replicate, show p3w.silence_chunks = 15 from rfl, CHUNK_SIZE,
      List.take_replicate]
    congr 1
  simp only [htr, -List.reduceReplicate]
  have hnot : ¬(List.replicate 4608 (1 : ℤ) = [] ∨
      ((List.replicate 4608 (1 : ℤ)).length : ℚ) / (p3w.config.sample_rate : ℚ) * 1000 <
        (p3w.config.min_speech_duration_ms : ℚ)) := by
    rw [List.length_replicate, hcfg]
    push_neg
    refine ⟨fun h => absurd (congrArg List.length h)
      (by rw [List.length_replicate, List.length_nil]; norm_num), ?_⟩
    norm_num [VadConfig.default]
  rw [if_neg hnot]
  exact ⟨rfl, trivial⟩

/-- Config with a 64 ms (two-chunk) maximum speech duration and zero minimum
duration. -/
def cfgC4 : VadConfig := ⟨16000, 1/2, 500, 64, 200, 0, none⟩

/-- A just-entered recording state under `cfgC4`: one chunk accumulated, one
chunk counted. -/
def p4w : VadProcessor := ⟨cfgC4, .Recording, List.replicate 512 1, [], 0, 1, 0, false⟩

/-- C4, amended.  In the `Recording` state the `speech_chunks` counter is
incremented on every processed chunk (speech or silence alike); on a chunk
above the threshold, when `(speech_chunks + 1) * chunkDurationMs` reaches
`max_speech_duration_ms` the segment is finalized without tail trimming
(emitted unless its duration is below the minimum), and otherwise the chunk
is appended, the silence counter reset, and nothing is output. -/
theorem vad_recording_speech_step (p : VadProcessor) (chunk : List ℤ) (prob : ℚ)
    (hrec : p.state = .Recording) (hlen : chunk.length = CHUNK_SIZE)
    (hp : p.config.speech_threshold < prob) :
    p.process_chunk chunk prob =
      (if (p.config.max_speech_duration_ms : ℚ) ≤
          ((p.speech_chunks : ℚ) + 1) * chunkDurationMs p.config then
        (p.reset,
          if ((p.current_segment ++ chunk).length : ℚ) / (p.config.sample_rate : ℚ) * 1000 <
              (p.config.min_speech_duration_ms : ℚ) then none
          else some (.Segment (p.current_segment ++ chunk)))
      else
        ({ p with
            current_segment := p.current_segment ++ chunk
            speech_chunks := p.speech_chunks + 1
            silence_chunks := 0 }, none)) := by
  rw [process_chunk_recording_speech p chunk prob hrec hp]
  by_cases htrig : (p.config.max_speech_duration_ms : ℚ) ≤
      ((p.speech_chunks : ℚ) + 1) * chunkDurationMs p.config
  · simp only [htrig, if_true]
    have hne : ¬ (p.current_segment ++ chunk = []) := by
      intro h
      have := congrArg List.length h
      simp [hlen] at this
      exact absurd this (by norm_num [CHUNK_SIZE])
    unfold VadProcessor.finalize_segment
    simp only [hne, if_false]
    generalize hL : p.current_segment ++ chunk = L at hne ⊢
    by_cases hdur : (L.length : ℚ) / (p.config.sample_rate : ℚ) * 1000 <
        (p.config.min_speech_duration_ms : ℚ)
    · simp [hdur, VadProcessor.reset]
    · simp [hdur, hne, VadProcessor.reset]
  · simp only [htrig, if_false]

/-- Config with a 96 ms (three-chunk) maximum speech duration and zero
minimum duration. -/
def cfgC4b : VadConfig := ⟨16000, 1/2, 500, 96, 200, 0, none⟩

set_option maxRecDepth 10000 in
/-- C4, counterexample to the claim as stated.  Under `cfgC4b`
(`max_speech_duration_ms = 96`, i.e. three 32 ms chunks) a fresh segmenter
fed speech, silence, silence, silence, speech closes the segment on the
fifth chunk: the code's counter has then counted four Recording chunks
(4 · 32 ≥ 96), while at most two chunks of the whole run exceeded the
threshold (the entering chunk and the fifth), and 2 · 32 < 96 — under the
claim's speech-only counting no finalization may happen anywhere in this
run, and the silence window (500 ms) is never reached either. -/
theorem vad_recording_speech_counter_cx :
    ((runVad (VadProcessor.new cfgC4b)
      [(chunk512, 9/10), (chunk512, 1/10), (chunk512, 1/10), (chunk512, 1/10),
        (chunk512, 9/10)]).2.map Option.isSome) = [false, false, false, false, true] ∧
    ¬ ((cfgC4b.max_speech_duration_ms : ℚ) ≤ (2 : ℚ) * chunkDurationMs cfgC4b) ∧
    ¬ ((cfgC4b.silence_duration_ms : ℚ) ≤ (3 : ℚ) * chunkDurationMs cfgC4b) := by
  refine ⟨?_, by norm_num [cfgC4b, chunkDurationMs, CHUNK_SIZE],
    by norm_num [cfgC4b, chunkDurationMs, CHUNK_SIZE]⟩
  norm_num [runVad, VadProcessor.process_chunk, VadProcessor.new, cfgC4b, chunkDurationMs,
    rollbackSamples, CHUNK_SIZE, VadProcessor.finalize_segment, VadProcessor.reset, chunk512]

/-- C4, witness: the amended step theorem applied to a concrete recording
state where the second chunk (counted regardless of its probability) reaches
the 64 ms cap and the segment is emitted untrimmed. -/
theorem vad_recording_speech_step_app :
    (p4w.process_chunk chunk512 (9/10)).2 = some (.Segment (List.replicate 1024 1)) ∧
    (p4w.process_chunk chunk512 (9/10)).1 = p4w.reset := by
  have hcfg : p4w.config = cfgC4 := rfl
  have happ : p4w.current_segment ++ chunk512 = List.replicate 1024 (1 : ℤ) := by
    rw [show p4w.current_segment = List.replicate 512 1 from rfl, chunk512,
      ← List.replicate_add]
  rw [vad_recording_speech_step p4w chunk512 (9/10) rfl chunk512_length
    (by rw [hcfg]; norm_num [cfgC4])]
  have hcond : (p4w.config.max_speech_duration_ms : ℚ) ≤
      ((p4w.speech_chunks : ℚ) + 1) * chunkDurationMs p4w.config := by
    rw [hcfg, show p4w.speech_chunks = 1 from rfl]
    norm_num [cfgC4, chunkDurationMs, CHUNK_SIZE]
  rw [if_pos hcond]
  simp only [happ, -List.reduceReplicate]
  have hnot : ¬ (((List.replicate 1024 (1 : ℤ)).length : ℚ) /
      (p4w.config.sample_rate : ℚ) * 1000 < (p4w.config.min_speech_duration_ms : ℚ)) := by
    rw [List.length_replicate, hcfg]
    norm_num [cfgC4]
  rw [if_neg hnot]
  exact ⟨rfl, trivial⟩

/-- Config with zero rollback duration. -/
def cfgC5 : VadConfig := ⟨16000, 1/2, 500, 10000, 0, 250, none⟩

/-- A waiting state under the default config (3200-sample rollback) with 100
samples of history, a nonzero dropped-chunk counter and the notified flag
set. -/
def p5w : VadProcessor :=
  ⟨VadConfig.default, .Waiting, [], List.replicate 100 2, 0, 0, 3, true⟩

/-- C5, amended.  On a Waiting chunk above the threshold the segmenter enters
`Recording`, seeding the segment with the capped rollback buffer: the last
`rollbackSamples` samples of (history ++ chunk); the rollback buffer, all
counters and the notified flag are cleared, and nothing is output.  The
current chunk is wholly contained in the seed whenever `rollbackSamples` is
at least the chunk size — not for every configured rollback duration. -/
theorem vad_waiting_speech_seed (p : VadProcessor) (chunk : List ℤ) (prob : ℚ)
    (hw : p.state = .Waiting) (hp : p.config.speech_threshold < prob) :
    (p.process_chunk chunk prob =
      ({ p with
          state := .Recording
          current_segment := p.current_segment ++ ((p.history_buffer ++ chunk).drop
            ((p.history_buffer ++ chunk).length - rollbackSamples p.config))
          history_buffer := []
          silence_chunks := 0
          speech_chunks := 0
          waiting_dropped_chunks := 0
          notified_silence := false }, none)) ∧
    (CHUNK_SIZE ≤ rollbackSamples p.config → chunk.length = CHUNK_SIZE →
      List.IsSuffix chunk (p.process_chunk chunk prob).1.current_segment) := by
  have h := process_chunk_waiting_speech p chunk prob hw hp
  refine ⟨h, fun hrb hlen => ?_⟩
  rw [CHUNK_SIZE] at hrb hlen
  have hk : (p.history_buffer ++ chunk).length - rollbackSamples p.config ≤
      p.history_buffer.length := by
    rw [List.length_append, hlen]
    omega
  have hsuf : List.IsSuffix chunk (p.current_segment ++
      ((p.history_buffer ++ chunk).drop
        ((p.history_buffer ++ chunk).length - rollbackSamples p.config))) := by
    rw [List.drop_append_of_le_length hk]
    exact ⟨p.current_segment ++ p.history_buffer.drop
      ((p.history_buffer ++ chunk).length - rollbackSamples p.config),
      by rw [List.append_assoc]⟩
  rw [h]
  exact hsuf

set_option maxRecDepth 4000 in
/-- C5, counterexample to the claim as stated.  With
`rollback_duration_ms = 0` the history cap empties the buffer after the
current chunk has been pushed into it, so the seed of the new segment is
empty: the current chunk (512 samples) is not contained in the seed at all,
although the state did switch to `Recording`. -/
theorem vad_waiting_speech_seed_cx :
    ((VadProcessor.new cfgC5).process_chunk chunk512 (9/10)).1.current_segment = [] ∧
    ((VadProcessor.new cfgC5).process_chunk chunk512 (9/10)).1.state = .Recording ∧
    chunk512.length = 512 := by
  refine ⟨?_, ?_, by rw [chunk512_length, CHUNK_SIZE]⟩ <;>
    norm_num [VadProcessor.process_chunk, VadProcessor.new, cfgC5, rollbackSamples,
      chunk512, CHUNK_SIZE]

/-- C5, witness: the amended theorem applied to a Waiting state with a 100
sample history under the default config, whose 3200-sample rollback exceeds
the chunk size: the seed is the full history followed by the whole chunk. -/
theorem vad_waiting_speech_seed_app :
    (p5w.process_chunk chunk512 (9/10)).1.current_segment =
      List.replicate 100 2 ++ chunk512 ∧
    (p5w.process_chunk chunk512 (9/10)).2 = none ∧
    List.IsSuffix chunk512 (p5w.process_chunk chunk512 (9/10)).1.current_segment := by
  have h := vad_waiting_speech_seed p5w chunk512 (9/10) rfl
    (by rw [show p5w.config = VadConfig.default from rfl]; norm_num [VadConfig.default])
  have hroll : rollbackSamples p5w.config = 3200 := by
    rw [show p5w.config = VadConfig.default from rfl]
    norm_num [rollbackSamples, VadConfig.default]
  have hlen6 : (p5w.history_buffer ++ chunk512).length = 612 := by
    rw [List.length_append, show p5w.history_buffer = List.replicate 100 2 from rfl,
      List.length_replicate, chunk512_length, CHUNK_SIZE]
  refine ⟨?_, ?_, h.2 (by rw [hroll, CHUNK_SIZE]; norm_num) chunk512_length⟩
  · rw [h.1]
    show p5w.current_segment ++ ((p5w.history_buffer ++ chunk512).drop
      ((p5w.history_buffer ++ chunk512).length - rollbackSamples p5w.config)) =
      List.replicate 100 2 ++ chunk512
    rw [hlen6, hroll, show (612 - 3200 : Nat) = 0 from rfl, List.drop_zero,
      show p5w.current_segment = ([] : List ℤ) from rfl, List.nil_append,
      show p5w.history_buffer = List.replicate 100 2 from rfl]
  · rw [h.1]


/-- Silent chunks in the `Waiting` state with no notification timeout
produce no output and leave the segmenter in `Waiting`. -/
theorem runVad_silence_none (cfg : VadConfig) (hn : cfg.notify_silence_after_ms = none) :
    ∀ (inputs : List (List ℤ × ℚ)) (p : VadProcessor),
      p.config = cfg → p.state = .Waiting →
      (∀ x ∈ inputs, x.2 ≤ cfg.speech_threshold) →
      (runVad p inputs).2 = List.replicate inputs.length none := by
  intro inputs
  induction inputs with
  | nil => intro p _ _ _; simp [runVad]
  | cons hd tl ih =>
      obtain ⟨chunk, prob⟩ := hd
      intro p hcfg hw hlow
      have hp : ¬ p.config.speech_threshold < prob := by
        rw [hcfg]
        exact not_lt.mpr (hlow (chunk, prob) (List.mem_cons_self _ _))
      have hstep := process_chunk_waiting_silence_none p chunk prob hw hp (by rw [hcfg]; exact hn)
      simp only [runVad, hstep, List.length_cons, List.replicate_succ]
      refine congrArg (List.cons none) (ih _ ?_ ?_ ?_)
      · simpa using hcfg
      · simpa using hw
      · exact fun x hx => hlow x (List.mem_cons_of_mem _ hx)

/-- Silent chunks in the `Waiting` state with a notification timeout `t`
configured: no `Segment` is ever output, and chunk `k` outputs a
`SilenceNotification` exactly when the accumulated dropped duration first
reaches `t` and no earlier notification was issued. -/
theorem runVad_silence_some (cfg : VadConfig) (t : Nat)
    (hn : cfg.notify_silence_after_ms = some t) :
    ∀ (inputs : List (List ℤ × ℚ)) (p : VadProcessor),
      p.config = cfg → p.state = .Waiting →
      (∀ x ∈ inputs, x.2 ≤ cfg.speech_threshold) →
      (∀ s, ¬ some (VadOutput.Segment s) ∈ (runVad p inputs).2) ∧
      (∀ k, k < inputs.length →
        ((runVad p inputs).2.getD k none = some .SilenceNotification ↔
          ((t : ℚ) ≤ ((p.waiting_dropped_chunks + k + 1 : ℕ) : ℚ) * chunkDurationMs cfg ∧
           p.notified_silence = false ∧
           ∀ j, j < k →
             ¬ ((t : ℚ) ≤ ((p.waiting_dropped_chunks + j + 1 : ℕ) : ℚ) * chunkDurationMs cfg)))) := by
  intro inputs
  induction inputs with
  | nil =>
      intro p hcfg hw hlow
      constructor
      · intro s hs
        simp [runVad] at hs
      · intro k hk
        simp at hk
  | cons hd tl ih =>
      obtain ⟨chunk, prob⟩ := hd
      intro p hcfg hw hlow
      have hp : ¬ p.config.speech_threshold < prob := by
        rw [hcfg]
        exact not_lt.mpr (hlow (chunk, prob) (List.mem_cons_self _ _))
      have hstep := process_chunk_waiting_silence_some p chunk prob t hw hp (by rw [hcfg]; exact hn)
      have hcast : ((p.waiting_dropped_chunks : ℚ) + 1) =
          ((p.waiting_dropped_chunks + 0 + 1 : ℕ) : ℚ) := by push_cast; ring
      simp only [runVad]
      by_cases hc : (t : ℚ) ≤ ((p.waiting_dropped_chunks : ℚ) + 1) * chunkDurationMs p.config ∧
          p.notified_silence = false
      · rw [hstep, if_pos hc]
        have ihA := ih { p with
            history_buffer := (p.history_buffer ++ chunk).drop
              ((p.history_buffer ++ chunk).length - rollbackSamples p.config)
            waiting_dropped_chunks := p.waiting_dropped_chunks + 1
            notified_silence := true } (by simpa using hcfg) (by simpa using hw)
          (fun x hx => hlow x (List.mem_cons_of_mem _ hx))
        constructor
        · intro s hs
          simp only [List.mem_cons] at hs
          rcases hs with h | h
          · exact absurd h (by simp)
          · exact ihA.1 s h
        · intro k hk
          match k with
          | 0 =>
              simp only [List.getD_cons_zero]
              constructor
              · intro _
                refine ⟨?_, hc.2, fun j hj => absurd hj (by omega)⟩
                rw [← hcast]
                rw [hcfg] at hc
                exact hc.1
              · intro _
                trivial
          | k + 1 =>
              simp only [List.getD_cons_succ]
              rw [(ihA.2 k (by simpa using hk))]
              constructor
              · rintro ⟨-, hfalse, -⟩
                exact absurd hfalse (by simp)
              · rintro ⟨-, -, hall⟩
                have h0 := hall 0 (by omega)
                rw [← hcast] at h0
                rw [hcfg] at hc
                exact absurd hc.1 h0
      · rw [hstep, if_neg hc]
        have ihB := ih { p with
            history_buffer := (p.history_buffer ++ chunk).drop
              ((p.history_buffer ++ chunk).length - rollbackSamples p.config)
            waiting_dropped_chunks := p.waiting_dropped_chunks + 1 } (by simpa using hcfg)
          (by simpa using hw) (fun x hx => hlow x (List.mem_cons_of_mem _ hx))
        constructor
        · intro s hs
          simp only [List.mem_cons] at hs
          rcases hs with h | h
          · exact absurd h (by simp)
          · exact ihB.1 s h
        · intro k hk
          match k with
          | 0 =>
              simp only [List.getD_cons_zero]
              constructor
              · intro hfalse
                exact absurd hfalse (by simp)
              · rintro ⟨h1, h2, -⟩
                rw [hcfg] at hc
                rw [← hcast] at h1
                exact absurd ⟨h1, h2⟩ hc
          | k + 1 =>
              simp only [List.getD_cons_succ]
              rw [(ihB.2 k (by simpa using hk))]
              constructor
              · rintro ⟨h1, h2, h3⟩
                refine ⟨?_, by simpa using h2, ?_⟩
                · have heq : p.waiting_dropped_chunks + 1 + k + 1 =
                      p.waiting_dropped_chunks + (k + 1) + 1 := by omega
                  rw [← heq]
                  simpa using h1
                · intro j hj
                  match j with
                  | 0 =>
                      intro habs
                      rw [← hcast] at habs
                      rw [hcfg] at hc
                      exact hc ⟨habs, by simpa using h2⟩
                  | j + 1 =>
                      have h3j := h3 j (by omega)
                      have heq : p.waiting_dropped_chunks + 1 + j + 1 =
                          p.waiting_dropped_chunks + (j + 1) + 1 := by omega
                      rw [heq] at h3j
                      exact h3j
              · rintro ⟨h1, h2, h3⟩
                refine ⟨?_, by simpa using h2, ?_⟩
                · have heq : p.waiting_dropped_chunks + 1 + k + 1 =
                      p.waiting_dropped_chunks + (k + 1) + 1 := by omega
                  rw [heq]
                  exact h1
                · intro j hj
                  have h3j := h3 (j + 1) (by omega)
                  have heq : p.waiting_dropped_chunks + 1 + j + 1 =
                      p.waiting_dropped_chunks + (j + 1) + 1 := by omega
                  rw [← heq] at h3j
                  exact h3j

/-- C6.  Feeding a fresh segmenter any number of chunks, all with
probability at or below the threshold: with no silence-notification timeout
configured, every output is `none` (zero outputs total); with a timeout `t`
configured, no `Segment` is ever emitted and chunk `k` emits a
`SilenceNotification` exactly when `(k + 1) * chunkDurationMs` reaches `t`
and no earlier chunk did — hence exactly one notification once the timeout
is ever reached. -/
theorem vad_all_silence_outputs (cfg : VadConfig) (inputs : List (List ℤ × ℚ))
    (hlow : ∀ x ∈ inputs, x.2 ≤ cfg.speech_threshold) :
    (cfg.notify_silence_after_ms = none →
      (runVad (VadProcessor.new cfg) inputs).2 = List.replicate inputs.length none) ∧
    (∀ t, cfg.notify_silence_after_ms = some t →
      (∀ s, ¬ some (VadOutput.Segment s) ∈ (runVad (VadProcessor.new cfg) inputs).2) ∧
      (∀ k, k < inputs.length →
        ((runVad (VadProcessor.new cfg) inputs).2.getD k none = some .SilenceNotification ↔
          ((t : ℚ) ≤ ((k + 1 : ℕ) : ℚ) * chunkDurationMs cfg ∧
           ∀ j, j < k → ¬ ((t : ℚ) ≤ ((j + 1 : ℕ) : ℚ) * chunkDurationMs cfg))))) := by
  constructor
  · intro hn
    exact runVad_silence_none cfg hn inputs (VadProcessor.new cfg) rfl rfl hlow
  · intro t hn
    have h := runVad_silence_some cfg t hn inputs (VadProcessor.new cfg) rfl rfl hlow
    refine ⟨h.1, fun k hk => ?_⟩
    rw [h.2 k hk]
    simp [VadProcessor.new]

/-- Config with a 64 ms silence-notification timeout. -/
def cfg6 : VadConfig := ⟨16000, 1/2, 500, 10000, 200, 250, some 64⟩

/-- Three silent chunks. -/
def inputs6 : List (List ℤ × ℚ) := [(chunk512, 0), (chunk512, 0), (chunk512, 0)]

/-- C6, witness: with a 64 ms timeout and 32 ms chunks, three silent chunks
into a fresh segmenter notify exactly at the second chunk and never emit a
segment. -/
theorem vad_all_silence_outputs_app :
    ((runVad (VadProcessor.new cfg6) inputs6).2.getD 1 none = some .SilenceNotification) ∧
    ¬ ((runVad (VadProcessor.new cfg6) inputs6).2.getD 0 none = some .SilenceNotification) ∧
    (∀ s, ¬ some (VadOutput.Segment s) ∈ (runVad (VadProcessor.new cfg6) inputs6).2) := by
  have hlow : ∀ x ∈ inputs6, x.2 ≤ cfg6.speech_threshold := by
    intro x hx
    simp only [inputs6, List.mem_cons, List.not_mem_nil, or_false] at hx
    rcases hx with h | h | h <;> (rw [h]; norm_num [cfg6])
  have h := (vad_all_silence_outputs cfg6 inputs6 hlow).2 64 rfl
  refine ⟨?_, ?_, h.1⟩
  · rw [h.2 1 (by simp [inputs6])]
    constructor
    · norm_num [chunkDurationMs, cfg6, CHUNK_SIZE]
    · intro j hj
      interval_cases j
      norm_num [chunkDurationMs, cfg6, CHUNK_SIZE]
  · rw [h.2 0 (by simp [inputs6])]
    rintro ⟨h1, -⟩
    norm_num [chunkDurationMs, cfg6, CHUNK_SIZE] at h1

/-- The decoder loop appends at most `fuel` non-`EOT` tokens and performs at
most `fuel` steps. -/
theorem inferLoop_spec (logits : Nat → List ℚ) :
    ∀ (fuel i : Nat) (tokens : List ℤ),
      ∃ ext : List ℤ,
        (inferLoop logits i fuel tokens).1 = tokens ++ ext ∧
        ext.length ≤ fuel ∧ EOT ∉ ext ∧
        (inferLoop logits i fuel tokens).2 ≤ fuel := by
  intro fuel
  induction fuel with
  | zero =>
      intro i tokens
      exact ⟨[], by simp [inferLoop]⟩
  | succ n ih =>
      intro i tokens
      by_cases h : ((argmaxLogits (logits i) : ℤ)) = EOT
      · refine ⟨[], ?_⟩
        simp [inferLoop, h]
      · obtain ⟨ext, h1, h2, h3, h4⟩ := ih (i + 1) (tokens ++ [(argmaxLogits (logits i) : ℤ)])
        refine ⟨(argmaxLogits (logits i) : ℤ) :: ext, ?_, ?_, ?_, ?_⟩
        · simp only [inferLoop, h, if_false]
          rw [h1, List.append_assoc]
          rfl
        · simpa using Nat.succ_le_succ h2
        · simp only [List.mem_cons, not_or]
          exact ⟨fun hc => h (hc ▸ rfl), h3⟩
        · simp only [inferLoop, h, if_false]
          exact Nat.succ_le_succ h4

/-- C2.  For every sequence of decoder-step logits, `BreezeModel::infer`
performs at most `MAX_LEN = 448` decoder steps; the returned token sequence
starts with `SOT = 50258`, never contains `EOT = 50257`, and has length at
most `MAX_LEN + 1 = 449` (running out of steps is normal termination). -/
theorem model_infer_bounds (logits : Nat → List ℚ) :
    (BreezeModel.infer logits).2 ≤ MAX_LEN ∧
    (BreezeModel.infer logits).1.head? = some SOT ∧
    EOT ∉ (BreezeModel.infer logits).1 ∧
    (BreezeModel.infer logits).1.length ≤ MAX_LEN + 1 := by
  obtain ⟨ext, h1, h2, h3, h4⟩ := inferLoop_spec logits MAX_LEN 0 [SOT]
  unfold BreezeModel.infer
  rw [h1]
  refine ⟨h4, ?_, ?_, ?_⟩
  · rfl
  · simp only [List.mem_append, List.mem_singleton, not_or]
    exact ⟨by norm_num [SOT, EOT], h3⟩
  · simp only [List.length_append, List.length_singleton]
    omega



/-- Invariant of the greedy fold, from an accumulator `(b, some m)` over the
entries enumerated from position `k`: either nothing beat `m` and the
accumulator survives, or the result is the first strictly-greater maximum. -/
theorem argmax_fold_spec (l : List ℚ) :
    ∀ (k b : Nat) (m : ℚ),
      ∃ v : ℚ, ((List.enumFrom k l).foldl argmaxStep (b, some m)).2 = some v ∧
        ((((List.enumFrom k l).foldl argmaxStep (b, some m)).1 = b ∧ v = m ∧
            ∀ j, j < l.length → l.getD j 0 ≤ m) ∨
         (m < v ∧ ∃ i, i < l.length ∧
            ((List.enumFrom k l).foldl argmaxStep (b, some m)).1 = k + i ∧
            l.getD i 0 = v ∧ (∀ j, j < l.length → l.getD j 0 ≤ v) ∧
            ∀ j, j < i → l.getD j 0 < v)) := by
  induction l with
  | nil =>
      intro k b m
      exact ⟨m, rfl, Or.inl ⟨rfl, rfl, fun j hj => absurd hj (by simp)⟩⟩
  | cons x xs ih =>
      intro k b m
      simp only [List.enumFrom, List.foldl_cons]
      by_cases hx : m < x
      · have hstep : argmaxStep (b, some m) (k, x) = (k, some x) := by
          simp [argmaxStep, hx]
        rw [hstep]
        obtain ⟨v, hv, hcase⟩ := ih (k + 1) k x
        refine ⟨v, hv, Or.inr ?_⟩
        rcases hcase with ⟨hr1, hveq, hall⟩ | ⟨hlt, i, hi, hr1, hget, hall, hstrict⟩
        · refine ⟨by rw [hveq]; exact hx, 0, by simp, by rw [hr1, Nat.add_zero], by simpa using hveq.symm, ?_, ?_⟩
          · intro j hj
            match j with
            | 0 => simp [hveq]
            | j + 1 =>
                simp only [List.getD_cons_succ]
                exact (hall j (by simpa using hj)).trans (le_of_eq hveq.symm)
          · intro j hj
            exact absurd hj (by omega)
        · refine ⟨hx.trans hlt, i + 1, by simp only [List.length_cons]; omega,
            by rw [hr1]; omega, by simpa using hget, ?_, ?_⟩
          · intro j hj
            match j with
            | 0 => simpa using le_of_lt hlt
            | j + 1 =>
                simp only [List.getD_cons_succ]
                exact hall j (by simpa using hj)
          · intro j hj
            match j with
            | 0 => simpa using hlt
            | j + 1 =>
                simp only [List.getD_cons_succ]
                exact hstrict j (by omega)
      · have hstep : argmaxStep (b, some m) (k, x) = (b, some m) := by
          simp [argmaxStep, hx]
        rw [hstep]
        obtain ⟨v, hv, hcase⟩ := ih (k + 1) b m
        refine ⟨v, hv, ?_⟩
        rcases hcase with ⟨hr1, hveq, hall⟩ | ⟨hlt, i, hi, hr1, hget, hall, hstrict⟩
        · refine Or.inl ⟨hr1, hveq, ?_⟩
          intro j hj
          match j with
          | 0 => simpa using not_lt.mp hx
          | j + 1 =>
              simp only [List.getD_cons_succ]
              exact hall j (by simpa using hj)
        · refine Or.inr ⟨hlt, i + 1, by simp only [List.length_cons]; omega,
            by rw [hr1]; omega, by simpa using hget, ?_, ?_⟩
          · intro j hj
            match j with
            | 0 => simpa using (not_lt.mp hx).trans (le_of_lt hlt)
            | j + 1 =>
                simp only [List.getD_cons_succ]
                exact hall j (by simpa using hj)
          · intro j hj
            match j with
            | 0 => simpa using lt_of_le_of_lt (not_lt.mp hx) hlt
            | j + 1 =>
                simp only [List.getD_cons_succ]
                exact hstrict j (by omega)

/-- C7.  The greedy fold of `BreezeModel::infer` selects the argmax of the
logits over the vocabulary with ties broken by the lowest index: the running
best is replaced only by a strictly greater value, so for a nonempty logits
vector the selected index is in range, its value is a maximum, and every
earlier index holds a strictly smaller value. -/
theorem infer_argmax_lowest_tiebreak (l : List ℚ) (hne : l ≠ []) :
    argmaxLogits l < l.length ∧
    (∀ j, j < l.length → l.getD j 0 ≤ l.getD (argmaxLogits l) 0) ∧
    (∀ j, j < argmaxLogits l → l.getD j 0 < l.getD (argmaxLogits l) 0) := by
  match l, hne with
  | x :: xs, _ =>
      have hfirst : (List.enum (x :: xs)).foldl argmaxStep (0, none) =
          (List.enumFrom 1 xs).foldl argmaxStep (0, some x) := by
        simp [List.enum, List.enumFrom, argmaxStep]
      have key : argmaxLogits (x :: xs) =
          ((List.enumFrom 1 xs).foldl argmaxStep (0, some x)).1 := by
        rw [argmaxLogits, hfirst]
      obtain ⟨v, hv, hcase⟩ := argmax_fold_spec xs 1 0 x
      rcases hcase with ⟨hr1, hveq, hall⟩ | ⟨hlt, i, hi, hr1, hget, hall, hstrict⟩
      · rw [key, hr1]
        refine ⟨by simp, ?_, ?_⟩
        · intro j hj
          match j with
          | 0 => simp
          | j + 1 =>
              simp only [List.getD_cons_succ, List.getD_cons_zero]
              exact hall j (by simpa using hj)
        · intro j hj
          exact absurd hj (by omega)
      · rw [key, hr1]
        have hidx : 1 + i = i + 1 := by omega
        rw [hidx]
        refine ⟨by simpa using hi, ?_, ?_⟩
        · intro j hj
          match j with
          | 0 =>
              simp only [List.getD_cons_zero, List.getD_cons_succ]
              rw [hget]
              exact le_of_lt hlt
          | j + 1 =>
              simp only [List.getD_cons_succ]
              rw [hget]
              exact hall j (by simpa using hj)
        · intro j hj
          match j with
          | 0 =>
              simp only [List.getD_cons_zero, List.getD_cons_succ]
              rw [hget]
              exact hlt
          | j + 1 =>
              simp only [List.getD_cons_succ]
              rw [hget]
              exact hstrict j (by omega)

/-- C7, witness: on the logits `[1, 3, 3, 2]` the fold picks index `1`, the
earlier of the two tied maxima, and the theorem's bounds hold there. -/
theorem infer_argmax_lowest_tiebreak_app :
    argmaxLogits [1, 3, 3, 2] = 1 ∧
    argmaxLogits [1, 3, 3, 2] < ([1, 3, 3, 2] : List ℚ).length ∧
    (∀ j, j < ([1, 3, 3, 2] : List ℚ).length →
      ([1, 3, 3, 2] : List ℚ).getD j 0 ≤
        ([1, 3, 3, 2] : List ℚ).getD (argmaxLogits [1, 3, 3, 2]) 0) ∧
    (∀ j, j < argmaxLogits [1, 3, 3, 2] →
      ([1, 3, 3, 2] : List ℚ).getD j 0 <
        ([1, 3, 3, 2] : List ℚ).getD (argmaxLogits [1, 3, 3, 2]) 0) := by
  have h := infer_argmax_lowest_tiebreak [1, 3, 3, 2] (by simp)
  refine ⟨?_, h.1, h.2.1, h.2.2⟩
  norm_num [argmaxLogits, List.enum, List.enumFrom, argmaxStep]


/-- A vocabulary with a single degenerate "special-looking" token `"<||>"`
(4 bytes). -/
def vocab9 : Tokenizer := ⟨fun i => if i = 0 then some [60, 124, 124, 62] else none⟩

/-- The spec's example vocabulary: id 0 is `"hello"`, id 1 is `"world"`. -/
def vocabHello : Tokenizer := ⟨fun i =>
  if i = 0 then some [104, 101, 108, 108, 111]
  else if i = 1 then some [119, 111, 114, 108, 100] else none⟩

/-- C9, counterexample to the claim as stated.  The token bytes `"<||>"`
begin with `"<|"` and end with `"|>"`, yet `Tokenizer::decode` does not skip
the token: its length is not greater than 4, so the decode of `[0]` is
`"<||>"` rather than the empty string the claim predicts. -/
theorem tokenizer_decode_special_cx :
    Tokenizer.decode vocab9 [0] = "<||>" ∧
    [60, 124].isPrefixOf [60, 124, 124, 62] = true ∧
    [124, 62].isSuffixOf [60, 124, 124, 62] = true := by
  decide

/-- `Tokenizer::decode`'s accumulation loop equals skipping special tokens
and flattening the remaining byte sequences in order. -/
theorem decodeBytes_eq_flatten (t : Tokenizer) : ∀ ids, t.decodeBytes ids =
    (ids.map fun id => match t.id_to_bytes id with
      | none => []
      | some bytes => if isSpecialToken bytes then [] else bytes).flatten
  | [] => by simp [Tokenizer.decodeBytes]
  | id :: rest => by
      simp only [Tokenizer.decodeBytes, List.map_cons, List.flatten_cons]
      cases h : t.id_to_bytes id with
      | none => simp [decodeBytes_eq_flatten t rest]
      | some bytes =>
          by_cases hs : isSpecialToken bytes = true
          · simp [hs, decodeBytes_eq_flatten t rest]
          · simp [hs, decodeBytes_eq_flatten t rest]

/-- C9, amended.  `Tokenizer::decode` skips every token whose byte sequence
is longer than 4 bytes *and* begins with `"<|"` and ends with `"|>"`,
concatenates the bytes of all remaining ids in order, and interprets the
result as UTF-8 with lossy replacement; ids `[0, 1]` mapping to `"hello"`
and `"world"` decode to `"helloworld"`. -/
theorem tokenizer_decode_spec (t : Tokenizer) (ids : List ℤ) :
    Tokenizer.decode t ids =
      String.mk (utf8DecodeLossy ((ids.map fun id =>
        match t.id_to_bytes id with
        | none => []
        | some bytes => if isSpecialToken bytes then [] else bytes).flatten)) ∧
    (∀ bytes, isSpecialToken bytes = true ↔
      (4 < bytes.length ∧ [60, 124].isPrefixOf bytes = true ∧
        [124, 62].isSuffixOf bytes = true)) ∧
    Tokenizer.decode vocabHello [0, 1] = "helloworld" := by
  refine ⟨?_, ?_, by decide⟩
  · rw [Tokenizer.decode, decodeBytes_eq_flatten]
  · intro bytes
    simp [isSpecialToken, Bool.and_eq_true, decide_eq_true_eq, and_assoc]

/-- Every item the yield logic produces for one segmenter output is an `ok`
text that is non-empty after trimming. -/
theorem segmentItems_spec (infSeg : List ℤ → Except Unit String) (out : Option VadOutput)
    (item : Except Unit String) (h : item ∈ segmentItems infSeg out) :
    ∃ text, item = .ok text ∧ rustTrim text ≠ "" := by
  match out with
  | none => simp [segmentItems] at h
  | some .SilenceNotification => simp [segmentItems] at h
  | some (.Segment seg) =>
      simp only [segmentItems] at h
      cases hi : infSeg seg with
      | error e => rw [hi] at h; simp at h
      | ok text =>
          rw [hi] at h
          by_cases ht : rustTrim text = ""
          · simp [ht] at h
          · simp only [ht, if_false, List.mem_singleton] at h
            exact ⟨text, h, ht⟩

/-- Over any chunk stream, every yielded item is an `ok` text, non-empty
after trimming. -/
theorem inferStream_ok_aux (infSeg : List ℤ → Except Unit String) :
    ∀ (inputs : List (List ℤ × ℚ)) (p : VadProcessor) (item : Except Unit String),
      item ∈ (inferStream infSeg p inputs).2 → ∃ text, item = .ok text ∧ rustTrim text ≠ ""
  | [], p, item => by
      intro h
      simp only [inferStream] at h
      exact segmentItems_spec infSeg _ item h
  | (chunk, prob) :: rest, p, item => by
      intro h
      simp only [inferStream] at h
      by_cases hlen : chunk.length ≠ CHUNK_SIZE
      · rw [if_pos hlen] at h
        exact inferStream_ok_aux infSeg rest p item h
      · rw [if_neg hlen] at h
        simp only [List.mem_append] at h
        rcases h with h | h
        · exact segmentItems_spec infSeg _ item h
        · exact inferStream_ok_aux infSeg rest _ item h

/-- C10.  `BreezeASR::infer_stream` silently consumes chunks whose length
differs from `CHUNK_SIZE = 512` without touching the segmenter, and every
item it yields is `Ok(text)` with `text` non-empty after trimming
whitespace: failed decodes and whitespace-only transcriptions are dropped. -/
theorem infer_stream_items (infSeg : List ℤ → Except Unit String) (p : VadProcessor) :
    (∀ (inputs : List (List ℤ × ℚ)) (item : Except Unit String),
      item ∈ (inferStream infSeg p inputs).2 →
      ∃ text, item = .ok text ∧ rustTrim text ≠ "") ∧
    (∀ (chunk : List ℤ) (prob : ℚ) (rest : List (List ℤ × ℚ)), chunk.length ≠ CHUNK_SIZE →
      inferStream infSeg p ((chunk, prob) :: rest) = inferStream infSeg p rest) := by
  constructor
  · exact fun inputs item h => inferStream_ok_aux infSeg inputs p item h
  · intro chunk prob rest hlen
    simp only [inferStream, if_pos hlen]


/-- A transcription oracle that always returns `"hi"`. -/
def infSeg0 : List ℤ → Except Unit String := fun _ => .ok "hi"

/-- A segmenter state with 8192 samples of pending segment, to be flushed by
`finish()`. -/
def p10 : VadProcessor :=
  ⟨VadConfig.default, .Recording, List.replicate 8192 1, [], 0, 0, 0, false⟩

/-- C10, witness: at the end of a stream the pending 8192-sample segment is
flushed and yields the one trimmed non-empty item `Ok "hi"`; and a 3-sample
chunk is consumed without reaching the segmenter. -/
theorem infer_stream_items_app :
    (∃ text, (Except.ok "hi" : Except Unit String) = .ok text ∧ rustTrim text ≠ "") ∧
    inferStream infSeg0 (VadProcessor.new VadConfig.default) [([1, 2, 3], 1/2)] =
      inferStream infSeg0 (VadProcessor.new VadConfig.default) [] := by
  refine ⟨?_, (infer_stream_items infSeg0 (VadProcessor.new VadConfig.default)).2
    [1, 2, 3] (1/2) [] (by rw [CHUNK_SIZE]; simp)⟩
  have hseg : p10.current_segment = List.replicate 8192 (1 : ℤ) := rfl
  have hne : p10.current_segment ≠ [] := by
    rw [hseg]
    intro h
    exact absurd (congrArg List.length h)
      (by rw [List.length_replicate, List.length_nil]; norm_num)
  have hdur : ¬ ((p10.current_segment.length : ℚ) / (p10.config.sample_rate : ℚ) * 1000 <
      (p10.config.min_speech_duration_ms : ℚ)) := by
    rw [hseg, List.length_replicate, show p10.config = VadConfig.default from rfl]
    norm_num [VadConfig.default]
  have hfin : p10.finish = (p10.reset, some (.Segment p10.current_segment)) := by
    simp only [VadProcessor.finish, hne, hdur, if_false, ne_eq, not_false_eq_true, if_true]
  have htrim : ¬ (rustTrim "hi" = "") := by decide
  have houts : (inferStream infSeg0 p10 []).2 = [Except.ok "hi"] := by
    simp only [inferStream, hfin, segmentItems, infSeg0, htrim, if_false]
  exact (infer_stream_items infSeg0 p10).1 [] (.ok "hi") (by rw [houts]; simp)


/-- Pad-with-`z`-or-truncate to length `N` always yields length `N`. -/
theorem fit_length {α : Type} (z : α) (N : Nat) (l : List α) :
    (if l.length < N then l ++ List.replicate (N - l.length) z
     else if N < l.length then l.take N else l).length = N := by
  split
  · rename_i h
    rw [List.length_append, List.length_replicate]
    omega
  · rename_i h
    split
    · rename_i h2
      rw [List.length_take]
      omega
    · rename_i h2
      omega

/-- A transpose with `cols` columns has `cols` rows. -/
theorem transposeM_length [LinearOrderedField α] (A : List (List α)) (c : Nat) :
    (transposeM A c).length = c := by
  rw [transposeM, List.length_map, List.length_range]

/-- Every row of a transpose has the original number of rows as its
length. -/
theorem transposeM_row_length [LinearOrderedField α] (A : List (List α)) (c : Nat)
    (row : List α) (h : row ∈ transposeM A c) : row.length = A.length := by
  rw [transposeM] at h
  simp only [List.mem_map, List.mem_range] at h
  obtain ⟨j, _, rfl⟩ := h
  rw [List.length_map]

/-- C1.  For every 16 kHz PCM input — empty, shorter or longer than the 30 s
window alike — `process_pcm` (via `log_mel_spectrogram`) first zero-pads or
truncates the input to `N_SAMPLES = 480000` samples and finally returns a
matrix of exactly 80 mel rows by 3000 time frames, the frame axis having
been zero-padded or truncated to 3000 before the transpose. -/
theorem audio_process_pcm_shape [LinearOrderedField α] (ops : FloatOps α) (audio : List α) :
    (if audio.length < N_SAMPLES then
        audio ++ List.replicate (N_SAMPLES - audio.length) (0 : α)
      else if N_SAMPLES < audio.length then audio.take N_SAMPLES else audio).length =
      N_SAMPLES ∧
    (AudioProcessor.process_pcm ops audio).length = 80 ∧
    ∀ row ∈ AudioProcessor.process_pcm ops audio, row.length = 3000 := by
  refine ⟨fit_length 0 N_SAMPLES audio, ?_, ?_⟩
  · simp only [AudioProcessor.process_pcm, AudioProcessor.log_mel_spectrogram]
    rw [transposeM_length, N_MELS]
  · intro row hrow
    simp only [AudioProcessor.process_pcm, AudioProcessor.log_mel_spectrogram] at hrow
    rw [transposeM_row_length _ _ row hrow]
    exact fit_length _ _ _


/-! ### Mel filter bank over the exact reals, for the numerical claim -/
/-- The exact real semantics of `f32::log10`. -/
noncomputable def log10R : ℝ → ℝ := Real.logb 10
/-- The exact real semantics of `10.0f32.powf`. -/
noncomputable def exp10R : ℝ → ℝ := fun x => (10 : ℝ) ^ x
/-- The mel anchor frequencies of the stored filter bank
(`mel_filter_bank(16000, 400, 80, 0.0, 8000.0)` from `AudioProcessor::new`),
in exact real arithmetic. -/
noncomputable def melPointR (i : Nat) : ℝ := melPoint log10R exp10R N_MELS 0 8000 i

/-- Closed form of the anchors: `mels[i] = 700 * ((87/7)^(i/81) - 1)`. -/
theorem melPointR_eq (i : Nat) : melPointR i = 700 * ((87 / 7 : ℝ) ^ ((i : ℝ) / 81) - 1) := by
  simp only [melPointR, melPoint, melScale, log10R, exp10R, N_MELS]
  rw [show (1 : ℝ) + 0 / 700 = 1 by norm_num, Real.logb_one,
    show (1 : ℝ) + 8000 / 700 = 87 / 7 by norm_num]
  rw [show (2595 * 0 + (2595 * Real.logb 10 (87 / 7) - 2595 * 0) * (i : ℝ) /
        (((80 : ℕ) : ℝ) + 1)) / 2595 = Real.logb 10 (87 / 7) * ((i : ℝ) / 81) by
      push_cast; ring]
  rw [Real.rpow_mul (by norm_num : (0 : ℝ) ≤ 10),
    Real.rpow_logb (by norm_num) (by norm_num) (by norm_num)]



/-- `q = (87/7)^(1/81)`, the ratio underlying the anchor frequencies. -/
noncomputable def melQ : ℝ := (87 / 7 : ℝ) ^ ((1 : ℝ) / 81)

theorem melQ_pos : 0 < melQ :=
  Real.rpow_pos_of_pos (by norm_num) _

theorem melQ_pow : melQ ^ (81 : ℕ) = 87 / 7 := by
  rw [melQ, ← Real.rpow_natCast ((87 / 7 : ℝ) ^ ((1 : ℝ) / 81)) 81,
    ← Real.rpow_mul (by norm_num : (0 : ℝ) ≤ 87 / 7)]
  norm_num

theorem melQ_gt : (1.031 : ℝ) < melQ := by
  by_contra h
  push_neg at h
  have h81 : melQ ^ (81 : ℕ) ≤ (1.031 : ℝ) ^ (81 : ℕ) :=
    pow_le_pow_left₀ (le_of_lt melQ_pos) h 81
  rw [melQ_pow] at h81
  norm_num at h81

theorem melQ_lt : melQ < (1.032 : ℝ) := by
  by_contra h
  push_neg at h
  have h81 : (1.032 : ℝ) ^ (81 : ℕ) ≤ melQ ^ (81 : ℕ) :=
    pow_le_pow_left₀ (by norm_num) h 81
  rw [melQ_pow] at h81
  norm_num at h81

theorem melPointR_zero : melPointR 0 = 0 := by
  rw [melPointR_eq]
  norm_num

theorem melPointR_one : melPointR 1 = 700 * (melQ - 1) := by
  rw [melPointR_eq, melQ]
  norm_num

theorem melPointR_two : melPointR 2 = 700 * (melQ ^ (2 : ℕ) - 1) := by
  rw [melPointR_eq, melQ]
  rw [show ((2 : ℕ) : ℝ) / 81 = (1 / 81) * 2 by norm_num]
  rw [Real.rpow_mul (by norm_num : (0 : ℝ) ≤ 87 / 7)]
  rw [Real.rpow_two]




theorem melF1_lo : (21 : ℝ) < 700 * (melQ - 1) := by nlinarith [melQ_gt]
theorem melF1_hi : 700 * (melQ - 1) < 23 := by nlinarith [melQ_lt]
theorem melF2_lo : (44 : ℝ) < 700 * (melQ ^ (2 : ℕ) - 1) := by
  nlinarith [melQ_gt, melQ_pos]
theorem melF2_hi : 700 * (melQ ^ (2 : ℕ) - 1) < 46 := by
  nlinarith [melQ_lt, melQ_pos]

theorem melWRaw_zero :
    melWeightRaw log10R exp10R SAMPLE_RATE N_FFT N_MELS 0 8000 0 0 = 0 := by
  have b0 : melPoint log10R exp10R N_MELS 0 8000 0 = (0 : ℝ) := melPointR_zero
  have b1 : melPoint log10R exp10R N_MELS 0 8000 1 = 700 * (melQ - 1) := melPointR_one
  simp only [melWeightRaw, SAMPLE_RATE, N_FFT]
  rw [b0, b1]
  rw [if_pos ⟨by norm_num, by norm_num; nlinarith [melF1_lo]⟩]
  norm_num

theorem melWRaw_one :
    melWeightRaw log10R exp10R SAMPLE_RATE N_FFT N_MELS 0 8000 1 0 =
      (700 * (melQ ^ (2 : ℕ) - 1) - 40) / (700 * (melQ ^ (2 : ℕ) - 1) - 700 * (melQ - 1)) := by
  have b0 : melPoint log10R exp10R N_MELS 0 8000 0 = (0 : ℝ) := melPointR_zero
  have b1 : melPoint log10R exp10R N_MELS 0 8000 1 = 700 * (melQ - 1) := melPointR_one
  have b2 : melPoint log10R exp10R N_MELS 0 8000 2 = 700 * (melQ ^ (2 : ℕ) - 1) := melPointR_two
  simp only [melWeightRaw, SAMPLE_RATE, N_FFT]
  rw [b0, b1, b2]
  rw [if_neg (by
    rintro ⟨-, hlt⟩
    norm_num at hlt
    nlinarith [melF1_hi])]
  rw [if_pos ⟨by norm_num; nlinarith [melF1_hi], by norm_num; nlinarith [melF2_lo]⟩]
  norm_num

theorem melWRaw_ge2 (j : Nat) (hj : 2 ≤ j) :
    melWeightRaw log10R exp10R SAMPLE_RATE N_FFT N_MELS 0 8000 j 0 = 0 := by
  have b0 : melPoint log10R exp10R N_MELS 0 8000 0 = (0 : ℝ) := melPointR_zero
  have b1 : melPoint log10R exp10R N_MELS 0 8000 1 = 700 * (melQ - 1) := melPointR_one
  have b2 : melPoint log10R exp10R N_MELS 0 8000 2 = 700 * (melQ ^ (2 : ℕ) - 1) := melPointR_two
  have hjr : (2 : ℝ) ≤ (j : ℝ) := by exact_mod_cast hj
  simp only [melWeightRaw, SAMPLE_RATE, N_FFT]
  rw [b0, b1, b2]
  rw [if_neg (by
    rintro ⟨-, hlt⟩
    push_cast at hlt
    nlinarith [melF1_hi])]
  rw [if_neg (by
    rintro ⟨-, hlt⟩
    push_cast at hlt
    nlinarith [melF2_hi])]



/-- Column sums of the stored filter bank, in exact real arithmetic. -/
noncomputable def melColSumR (i : Nat) : ℝ :=
  melColSum log10R exp10R SAMPLE_RATE N_FFT N_MELS 0 8000 i

/-- C8, counterexample to the claim as stated.  For mel band 0 of the
stored filter bank, the column sum times the band's bandwidth
(`mels[2] - mels[0]`) is below 1 in exact real arithmetic — far from 2, by a
margin (more than 1) that no floating-point tolerance can absorb: only the
single FFT bin at 40 Hz falls inside the band, and the discrete triangle
weights sum to about 0.22 rather than 1. -/
theorem melColSumR_cx : melColSumR 0 * (melPointR 2 - melPointR 0) < 1 := by
  have b0 : melPoint log10R exp10R N_MELS 0 8000 0 = (0 : ℝ) := melPointR_zero
  have b2 : melPoint log10R exp10R N_MELS 0 8000 2 =
      700 * (melQ ^ (2 : ℕ) - 1) := melPointR_two
  have hconv : melColSumR 0 = ∑ j in Finset.range 201,
      melWeight log10R exp10R SAMPLE_RATE N_FFT N_MELS 0 8000 j 0 := by
    simp only [melColSumR, melColSum, N_FFT]
    rfl
  have hsum : melColSumR 0 =
      melWeightRaw log10R exp10R SAMPLE_RATE N_FFT N_MELS 0 8000 1 0 *
        (2 / (melPoint log10R exp10R N_MELS 0 8000 2 -
              melPoint log10R exp10R N_MELS 0 8000 0)) := by
    rw [hconv]
    rw [Finset.sum_eq_single 1]
    · simp only [melWeight]
    · intro j hj hne
      simp only [melWeight]
      rcases Nat.lt_or_ge j 2 with h2 | h2
      · interval_cases j
        · rw [melWRaw_zero, zero_mul]
        · exact absurd rfl hne
      · rw [melWRaw_ge2 j h2, zero_mul]
    · intro h
      exact absurd (Finset.mem_range.mpr (by norm_num)) h
  rw [melPointR_two, melPointR_zero, hsum, melWRaw_one, b0, b2, sub_zero]
  have hA := melF2_lo
  have hAhi := melF2_hi
  have hBlo := melF1_lo
  have hBhi := melF1_hi
  have hgap : (0 : ℝ) < 700 * (melQ ^ (2 : ℕ) - 1) - 700 * (melQ - 1) := by linarith
  have hAne : (700 * (melQ ^ (2 : ℕ) - 1)) ≠ 0 := ne_of_gt (by linarith)
  rw [mul_assoc, div_mul_cancel₀ (2 : ℝ) hAne, div_mul_eq_mul_div, div_lt_one hgap]
  linarith



/-- C8, amended.  `mel_filter_bank` scales each band's column by the factor
`2 / (mels[i+2] - mels[i])`, so a band's total (column sum) equals
`2 / bandwidth` times the *unnormalized* triangle column sum — the product
of column sum and bandwidth is `2 × (raw column sum)`, which is 2 only when
the discrete triangle sums to 1, and in general (see the counterexample) it
is not. -/
theorem mel_filter_bank_normalization [LinearOrderedField α] (log10F exp10F : α → α)
    (sr n_fft n_mels : Nat) (fmin fmax : α) (i : Nat) :
    melColSum log10F exp10F sr n_fft n_mels fmin fmax i =
      (2 / (melPoint log10F exp10F n_mels fmin fmax (i + 2) -
            melPoint log10F exp10F n_mels fmin fmax i)) *
        melColSumRaw log10F exp10F sr n_fft n_mels fmin fmax i := by
  simp only [melColSum, melColSumRaw, melWeight]
  rw [List.sum_map_mul_right, mul_comm]

end Breeze
